import Mathlib

/-!
Shallow embedding of the geoping measurement-and-reconciliation pipeline
(src/main.rs, src/iplookup.rs) and proofs about its specified properties.

Rust `f64` round-trip times are modelled as `ℚ` (every concrete value in the
claims is exactly representable, and all arithmetic performed on RTTs by the
program — comparison, addition, division by a list length or by 2 — is exact
on those values). Rust `HashMap<CountryCode, Vec<_>>` is modelled as an
association list with distinct keys; the list order stands for the map's
iteration order, which the program itself treats as arbitrary.
-/

namespace Geoping

/-- Rust `type CountryCode = String` (main.rs line 19). -/
abbrev CountryCode := String

/-- Rust `type City = String` (main.rs line 20). -/
abbrev City := String

/-- Rust `type IP = String` (main.rs line 21). -/
abbrev IP := String

/-- Rust `type Rtt = f64` (main.rs line 22), modelled exactly as a rational. -/
abbrev Rtt := ℚ

/-- Rust `const MAX_RTT: f64 = 500.0` (main.rs line 26). -/
def MAX_RTT : Rtt := 500

/-- Rust `const PING_COUNT: u16 = 10` (main.rs line 27). -/
def PING_COUNT : ℕ := 10

/-! ## Latency prober (`ping_servers`, main.rs lines 141-158)

One iteration of the `'ping_loop` either times out (`Err(_)` from `timeout`),
yields a reply with a measured RTT (`Ok(Ok((_, duration)))`), or fails for
another reason (`Ok(Err(_))`, silently ignored). -/

/-- Outcome of a single probe in the `'ping_loop` of `ping_servers`. -/
inductive ProbeOutcome where
  | timeout : ProbeOutcome
  | reply : Rtt → ProbeOutcome
  | failOther : ProbeOutcome
deriving DecidableEq

/-- The `'ping_loop` body (main.rs lines 142-156): fold the probe outcomes,
updating `min_rtt` on a reply (`if rtt < min_rtt`), skipping other failures,
and breaking out at the first timeout. -/
def pingLoop : Rtt → List ProbeOutcome → Rtt
  | minRtt, [] => minRtt
  | minRtt, ProbeOutcome.timeout :: _ => minRtt
  | minRtt, ProbeOutcome.reply rtt :: rest =>
      pingLoop (if rtt < minRtt then rtt else minRtt) rest
  | minRtt, ProbeOutcome.failOther :: rest => pingLoop minRtt rest

/-- The per-address result of `ping_servers`: run the ping loop over (at most)
`PING_COUNT` probes starting from `min_rtt = MAX_RTT`; the address produces a
measurement only when `min_rtt < MAX_RTT` (main.rs line 158). -/
def probe (outcomes : List ProbeOutcome) : Option Rtt :=
  let minRtt := pingLoop MAX_RTT (outcomes.take PING_COUNT)
  if minRtt < MAX_RTT then some minRtt else none

/-- How many loop iterations (probes) the `'ping_loop` executes on a given
outcome list: it stops after the first timeout. -/
def attemptsIn : List ProbeOutcome → ℕ
  | [] => 0
  | ProbeOutcome.timeout :: _ => 1
  | _ :: rest => attemptsIn rest + 1

/-- Number of probes actually attempted for one address: the ping loop runs
at most `PING_COUNT` iterations and stops at the first timeout. -/
def probesAttempted (outcomes : List ProbeOutcome) : ℕ :=
  attemptsIn (outcomes.take PING_COUNT)

/-- The RTTs of the replies received before the loop stops: replies up to the
first timeout, among the first `PING_COUNT` probes. -/
def repliesBefore : List ProbeOutcome → List Rtt
  | [] => []
  | ProbeOutcome.timeout :: _ => []
  | ProbeOutcome.reply rtt :: rest => rtt :: repliesBefore rest
  | ProbeOutcome.failOther :: rest => repliesBefore rest

/-- Replies the prober actually sees: those before the stop, within the
first `PING_COUNT` outcomes. -/
def repliesSeen (outcomes : List ProbeOutcome) : List Rtt :=
  repliesBefore (outcomes.take PING_COUNT)

/-! ## Geolocation cache (`IpInfoClientWrapper`, iplookup.rs lines 29-48) -/

/-- The fields of an `ipinfo::IpDetails` record the program reads. -/
structure GeoDetails where
  country : CountryCode
  city : City
deriving DecidableEq

/-- Outcome of one external `native_client.lookup(ip)` call. -/
inductive LookupResult where
  | ok : GeoDetails → LookupResult
  | err : LookupResult
deriving DecidableEq

/-- The wrapper's `cache: HashMap<IP, IpDetails>`, as an association list;
lookup finds the first binding, insertion prepends (shadowing any older
binding, which a `HashMap` never holds anyway). -/
abbrev Cache := List (IP × GeoDetails)

/-- Embeds `self.cache.get(&ip.to_string())`. -/
def cacheGet (cache : Cache) (ip : IP) : Option GeoDetails :=
  match cache.find? (fun e => e.1 = ip) with
  | some e => some e.2
  | none => none

/-- Embeds `self.cache.insert(ip.to_string(), details.clone())`. -/
def cacheInsert (cache : Cache) (ip : IP) (d : GeoDetails) : Cache :=
  (ip, d) :: cache

/-- Embeds `IpInfoClientWrapper::query` (iplookup.rs lines 29-48). The external
service is the oracle `lookup`; the result triple is (returned value with
`none` for `Err`, cache after the call, number of external lookups made). -/
def query (lookup : IP → LookupResult) (cache : Cache) (ip : IP) :
    Option GeoDetails × Cache × ℕ :=
  match cacheGet cache ip with
  | some details => (some details, cache, 0)
  | none =>
      match lookup ip with
      | LookupResult.ok details => (some details, cacheInsert cache ip details, 1)
      | LookupResult.err => (none, cache, 1)

/-! ## Country groups -/

/-- One element of a country group's vector: `(City, IP, Rtt)`. -/
abbrev Meas := City × IP × Rtt

/-- Rust `HashMap<CountryCode, Vec<(City, IP, Rtt)>>`, as an association list. -/
abbrev CountryMap := List (CountryCode × List Meas)

/-- The key set (in iteration order) of a country map. -/
def keys (m : CountryMap) : List CountryCode := m.map Prod.fst

/-- The invariant a `HashMap` provides: its keys are distinct. -/
def distinctKeys (m : CountryMap) : Prop := (keys m).Nodup

instance (m : CountryMap) : Decidable (distinctKeys m) :=
  inferInstanceAs (Decidable ((keys m).Nodup))

/-- Total number of measurements across all groups. -/
def totalCount (m : CountryMap) : ℕ := (m.map (fun e => e.2.length)).sum

/-- Embeds `rtts.get(..)` / `rtts.get_mut(..)`: the first (for distinct keys, only)
binding of a key. -/
def mapLookup (k : CountryCode) : CountryMap → Option (List Meas)
  | [] => none
  | e :: rest => if e.1 = k then some e.2 else mapLookup k rest

/-- Apply `f` to the vector bound to `k` (the effect of mutating through
`rtts.get_mut(k)`); identity when `k` is absent — in the program the key is
always present at these call sites, so the `unwrap` never panics. -/
def mapUpdate (k : CountryCode) (f : List Meas → List Meas) : CountryMap → CountryMap
  | [] => []
  | e :: rest => if e.1 = k then (e.1, f e.2) :: rest else e :: mapUpdate k f rest

/-- Embeds `if let Some(entry) = rtts.get_mut(&cc_real) ... entry.push(m) ...`
(main.rs lines 258-260): append only when the group already exists; a missing
group is NOT created. -/
def pushIfPresent (k : CountryCode) (x : Meas) (m : CountryMap) : CountryMap :=
  match mapLookup k m with
  | some _ => mapUpdate k (fun ms => ms ++ [x]) m
  | none => m

/-! ## Country reconciler (`fix_countries`, main.rs lines 216-264) -/

/-- One entry of the `modifiers` vector:
`(cc.clone(), i, details.country, city.clone(), ip.clone(), *rtt)`. -/
structure Modifier where
  ccOld : CountryCode
  idx : ℕ
  ccNew : CountryCode
  city : City
  ip : IP
  rtt : Rtt
deriving DecidableEq

/-- The inner scan loop of `fix_countries` over one group (main.rs lines
227-248): for each measurement (enumerated from `i`), query geolocation; a
successful lookup whose country differs from the group key pushes a modifier;
a failed lookup only logs and moves on. -/
def scanGroup (geo : IP → Option GeoDetails) (cc : CountryCode) :
    ℕ → List Meas → List Modifier
  | _, [] => []
  | i, (city, ip, rtt) :: rest =>
      (match geo ip with
       | some details =>
           if details.country ≠ cc then [⟨cc, i, details.country, city, ip, rtt⟩] else []
       | none => []) ++ scanGroup geo cc (i + 1) rest

/-- The full scan of `fix_countries` (main.rs lines 225-249), group by group
in iteration order. -/
def scanModifiers (geo : IP → Option GeoDetails) : CountryMap → List Modifier
  | [] => []
  | (cc, ms) :: rest => scanGroup geo cc 0 ms ++ scanModifiers geo rest

/-- One step of the removal pass:
`rtts.get_mut(cc_estimated).unwrap().remove(*i)` (main.rs line 253). -/
def removeStep (acc : CountryMap) (md : Modifier) : CountryMap :=
  mapUpdate md.ccOld (fun ms => ms.eraseIdx md.idx) acc

/-- The removal pass (main.rs lines 251-254):
`for (cc_estimated, i, ..) in modifiers.iter().rev() { rtts.get_mut(cc_estimated).unwrap().remove(*i); }`. -/
def applyRemovals (mods : List Modifier) (m : CountryMap) : CountryMap :=
  mods.reverse.foldl removeStep m

/-- One step of the insertion pass (main.rs lines 258-260). -/
def insertStep (acc : CountryMap) (md : Modifier) : CountryMap :=
  pushIfPresent md.ccNew (md.city, md.ip, md.rtt) acc

/-- The insertion pass (main.rs lines 256-261): push each relocated
measurement into its resolved-country group when that group exists. -/
def applyInserts (mods : List Modifier) (m : CountryMap) : CountryMap :=
  mods.foldl insertStep m

/-- Embeds `fix_countries` (main.rs lines 216-264): scan, then remove in reverse
modifier order, then insert in modifier order. -/
def fix_countries (geo : IP → Option GeoDetails) (rtts : CountryMap) : CountryMap :=
  let mods := scanModifiers geo rtts
  applyInserts mods (applyRemovals mods rtts)

/-- A measurement is marked for relocation exactly when its geolocation
lookup succeeds with a country different from the group key. -/
def markedMeas (geo : IP → Option GeoDetails) (cc : CountryCode) (m : Meas) : Bool :=
  match geo m.2.1 with
  | some details => details.country ≠ cc
  | none => false

/-- The measurements that stay where they are after the removal pass. -/
def keepMeas (geo : IP → Option GeoDetails) (cc : CountryCode) (m : Meas) : Bool :=
  ! markedMeas geo cc m

/-- Specification-side description of the removal pass: each group keeps
exactly its unmarked measurements, in order. -/
def removeMarked (geo : IP → Option GeoDetails) (m : CountryMap) : CountryMap :=
  m.map (fun e => (e.1, e.2.filter (keepMeas geo e.1)))

/-! ## Statistics aggregator (`generate_csv`, main.rs lines 266-321)

The per-group statistics block can panic: for an empty group the median
computation indexes `entries[len / 2 - 1]` with `len = 0`, a `usize`
underflow followed by an out-of-bounds access. The embedding returns
`Option`, with `none` marking that panic (a lookup into the empty sorted
list fails at every index, so the Nat-truncated `0 / 2 - 1 = 0` still
lands on `none` exactly where Rust panics). -/

/-- One row of `intermediate`: `(cc, min, median, average, max)`. -/
abbrev Row := CountryCode × Rtt × Rtt × Rtt × Rtt

/-- The min field of a row. -/
def rowMin (r : Row) : Rtt := r.2.1

/-- The comparison `entries.sort_by(..)` sorts a group's vector by
(main.rs line 293): ascending RTT. -/
def measLE (e1 e2 : Meas) : Prop := e1.2.2 ≤ e2.2.2

instance : DecidableRel measLE :=
  fun e1 e2 => inferInstanceAs (Decidable (e1.2.2 ≤ e2.2.2))

/-- The per-group statistics block of `generate_csv` (main.rs lines 276-304):
fold min (from `MAX_RTT`), max (from `0.0`) and sum over the vector, take
`average = sum / len`, sort by RTT and read the median off the sorted
vector — for even `len` the program adds `entries[len/2 - 1]` to itself and
halves. Rust's `sort_by` is stable; `List.insertionSort` is also stable
(`List.sublist_insertionSort`), and a stable sort by a total preorder is
unique, so the two agree. -/
def groupStats (entries : List Meas) : Option (Rtt × Rtt × Rtt × Rtt) :=
  let min := entries.foldl (fun m e => if e.2.2 < m then e.2.2 else m) MAX_RTT
  let max := entries.foldl (fun m e => if e.2.2 > m then e.2.2 else m) 0
  let sum := entries.foldl (fun s e => s + e.2.2) 0
  let average := sum / (entries.length : ℚ)
  let len := entries.length
  let sorted := entries.insertionSort measLE
  let median? :=
    if len % 2 = 0 then
      match sorted.get? (len / 2 - 1) with
      | some e => some ((e.2.2 + e.2.2) / 2)
      | none => none
    else
      match sorted.get? (len / 2) with
      | some e => some e.2.2
      | none => none
  match median? with
  | some median => some (min, median, average, max)
  | none => none

/-- The `intermediate` vector of `generate_csv` (main.rs lines 272-307), in
map-iteration order; `none` when any group's statistics panic. -/
def intermediateRows : CountryMap → Option (List Row)
  | [] => some []
  | (cc, entries) :: rest =>
      match groupStats entries with
      | some (min, median, average, max) =>
          match intermediateRows rest with
          | some rows => some ((cc, min, median, average, max) :: rows)
          | none => none
      | none => none

/-- The comparison `generate_csv` sorts the intermediate rows by
(main.rs line 309): ascending min RTT. -/
def rowLE (r1 r2 : Row) : Prop := rowMin r1 ≤ rowMin r2

instance : DecidableRel rowLE :=
  fun r1 r2 => inferInstanceAs (Decidable (rowMin r1 ≤ rowMin r2))

instance : IsTotal Row rowLE := ⟨fun r1 r2 => le_total (rowMin r1) (rowMin r2)⟩

instance : IsTrans Row rowLE := ⟨fun _ _ _ h1 h2 => le_trans h1 h2⟩

/-- The sorted output rows of `generate_csv`: Rust's stable `sort_by`
modelled by the stable `List.insertionSort` (see `groupStats` on why the
two stable sorts agree). -/
def aggregate (rtts : CountryMap) : Option (List Row) :=
  match intermediateRows rtts with
  | some rows => some (rows.insertionSort rowLE)
  | none => none

/-- Embeds `format!("{:.03}", x)` on a non-negative rational: integer part, a
decimal point, and exactly three fractional digits (rounded; Rust rounds
ties to even, the tie direction is irrelevant to every property below). -/
def fixed3 (q : ℚ) : String :=
  let n : ℕ := (round (q * 1000) : ℤ).toNat
  let ipart := n / 1000
  let fpart := n % 1000
  let fstr := toString fpart
  let pad := if fpart < 10 then "00" else if fpart < 100 then "0" else ""
  toString ipart ++ "." ++ pad ++ fstr

/-- Embeds `.replace('.', ",")` on the formatted number (main.rs lines 314-317):
a single-character pattern replaced by a single character is a per-character
map over the string. -/
def replaceDot (s : String) : String :=
  String.mk (s.data.map (fun c => if c = '.' then ',' else c))

/-- How `generate_csv` renders every RTT field of every output row:
`format!("{:.03}", x).replace('.', ",")`. -/
def formatRtt (q : Rtt) : String := replaceDot (fixed3 q)

/-- One output line of `generate_csv` (main.rs lines 311-318). -/
def formatRow (r : Row) : String :=
  r.1 ++ "\t" ++ formatRtt r.2.1 ++ "\t" ++ formatRtt r.2.2.1 ++ "\t" ++
    formatRtt r.2.2.2.1 ++ "\t" ++ formatRtt r.2.2.2.2 ++ "\n"

/-- Embeds `generate_csv` (main.rs lines 266-321): header plus one line per sorted
row; `none` when the statistics of some group panic. -/
def generate_csv (rtts : CountryMap) : Option String :=
  match aggregate rtts with
  | some rows =>
      some (rows.foldl (fun csv r => csv ++ formatRow r)
        "Country\tMin RTT\tMedian RTT\tAverage RTT\tMax RTT\n")
  | none => none

/-! ## Generic lemmas about the running-minimum folds -/

theorem foldl_minBy_eq_or_mem {α : Type} (g : α → ℚ) :
    ∀ (l : List α) (a : ℚ),
      l.foldl (fun m x => if g x < m then g x else m) a = a ∨
        ∃ x ∈ l, l.foldl (fun m x => if g x < m then g x else m) a = g x := by
  intro l
  induction l with
  | nil => intro a; exact Or.inl rfl
  | cons x rest ih =>
      intro a
      simp only [List.foldl_cons]
      by_cases h : g x < a
      · simp only [if_pos h]
        rcases ih (g x) with h' | ⟨y, hy, h'⟩
        · exact Or.inr ⟨x, List.mem_cons_self x rest, h'⟩
        · exact Or.inr ⟨y, List.mem_cons_of_mem x hy, h'⟩
      · simp only [if_neg h]
        rcases ih a with h' | ⟨y, hy, h'⟩
        · exact Or.inl h'
        · exact Or.inr ⟨y, List.mem_cons_of_mem x hy, h'⟩

theorem foldl_minBy_le_init {α : Type} (g : α → ℚ) :
    ∀ (l : List α) (a : ℚ),
      l.foldl (fun m x => if g x < m then g x else m) a ≤ a := by
  intro l
  induction l with
  | nil => intro a; exact le_refl a
  | cons x rest ih =>
      intro a
      simp only [List.foldl_cons]
      by_cases h : g x < a
      · simp only [if_pos h]; exact le_trans (ih (g x)) (le_of_lt h)
      · simp only [if_neg h]; exact ih a

theorem foldl_minBy_le_mem {α : Type} (g : α → ℚ) :
    ∀ (l : List α) (a : ℚ), ∀ x ∈ l,
      l.foldl (fun m x => if g x < m then g x else m) a ≤ g x := by
  intro l
  induction l with
  | nil => intro a x hx; cases hx
  | cons y rest ih =>
      intro a x hx
      simp only [List.foldl_cons]
      rcases List.mem_cons.mp hx with rfl | hx'
      · by_cases h : g x < a
        · simp only [if_pos h]; exact foldl_minBy_le_init g rest (g x)
        · simp only [if_neg h]
          exact le_trans (foldl_minBy_le_init g rest a) (not_lt.mp h)
      · by_cases h : g y < a
        · simp only [if_pos h]; exact ih (g y) x hx'
        · simp only [if_neg h]; exact ih a x hx'

/-! ## The ping loop -/

theorem pingLoop_eq_foldl :
    ∀ (l : List ProbeOutcome) (a : Rtt),
      pingLoop a l = (repliesBefore l).foldl (fun m r => if r < m then r else m) a := by
  intro l
  induction l with
  | nil => intro a; rfl
  | cons o rest ih =>
      intro a
      cases o with
      | timeout => rfl
      | reply rtt => simpa [pingLoop, repliesBefore] using ih (if rtt < a then rtt else a)
      | failOther => simpa [pingLoop, repliesBefore] using ih a

/-- C5: for every probed address, the prober issues probes sequentially,
stops at the first per-probe timeout, and yields the minimum RTT of the
replies received before the stop provided that minimum is strictly below
the `MAX_RTT` ceiling: (1) any returned representative RTT is one of the
replies seen before the stop, is a lower bound of all of them, and is below
the ceiling; (2) for an address replying to probes 1-3 with RTTs 40, 35, 50
and timing out on probe 4, whatever the remaining outcomes would have been,
the result is 35 and exactly 4 probes are attempted (probes 5-10 never
happen). -/
theorem claim_C5 :
    (∀ (outcomes : List ProbeOutcome) (r : Rtt), probe outcomes = some r →
      r ∈ repliesSeen outcomes ∧ (∀ x ∈ repliesSeen outcomes, r ≤ x) ∧ r < MAX_RTT) ∧
    (∀ rest : List ProbeOutcome,
      probe ([ProbeOutcome.reply 40, ProbeOutcome.reply 35, ProbeOutcome.reply 50,
        ProbeOutcome.timeout] ++ rest) = some 35 ∧
      probesAttempted ([ProbeOutcome.reply 40, ProbeOutcome.reply 35, ProbeOutcome.reply 50,
        ProbeOutcome.timeout] ++ rest) = 4) := by
  constructor
  · intro outcomes r hr
    unfold probe at hr
    rw [pingLoop_eq_foldl] at hr
    simp only [repliesSeen]
    by_cases hlt :
        (repliesBefore (outcomes.take PING_COUNT)).foldl
          (fun m x => if x < m then x else m) MAX_RTT < MAX_RTT
    · rw [if_pos hlt] at hr
      have hr' : (repliesBefore (outcomes.take PING_COUNT)).foldl
          (fun m x => if x < m then x else m) MAX_RTT = r :=
        Option.some_injective _ hr
      refine ⟨?_, ?_, ?_⟩
      · rcases foldl_minBy_eq_or_mem (fun x : ℚ => x)
            (repliesBefore (outcomes.take PING_COUNT)) MAX_RTT with h | ⟨x, hx, h⟩
        · rw [h] at hr' hlt
          exact absurd hlt (lt_irrefl _)
        · rw [h] at hr'
          rw [← hr']
          exact hx
      · intro x hx
        rw [← hr']
        exact foldl_minBy_le_mem (fun x : ℚ => x) _ MAX_RTT x hx
      · rw [hr'] at hlt
        exact hlt
    · rw [if_neg hlt] at hr
      cases hr
  · intro rest
    constructor
    · show probe _ = some 35
      unfold probe PING_COUNT
      norm_num [List.take_succ_cons, pingLoop, MAX_RTT]
    · unfold probesAttempted PING_COUNT
      norm_num [List.take_succ_cons, attemptsIn]

/-- C5 witness: applying the theorem at a concrete outcome list. -/
theorem claim_C5_witness :
    probe [ProbeOutcome.reply 40, ProbeOutcome.reply 35, ProbeOutcome.reply 50,
      ProbeOutcome.timeout] = some 35 := by
  have h := claim_C5.2 []
  simpa using h.1

/-! ## The geolocation cache -/

/-- C7: a cache query returns the cached record with no external lookup when
the address is already cached; otherwise it performs exactly one external
lookup, caching the record on success, and on failure returns the error
without caching anything, so a subsequent query for the same address
performs the external lookup again. -/
theorem claim_C7 (lookup : IP → LookupResult) (cache : Cache) (ip : IP) :
    (∀ d, cacheGet cache ip = some d → query lookup cache ip = (some d, cache, 0)) ∧
    (∀ d, cacheGet cache ip = none → lookup ip = LookupResult.ok d →
      query lookup cache ip = (some d, cacheInsert cache ip d, 1)) ∧
    (cacheGet cache ip = none → lookup ip = LookupResult.err →
      query lookup cache ip = (none, cache, 1) ∧
        (query lookup (query lookup cache ip).2.1 ip).2.2 = 1) := by
  refine ⟨?_, ?_, ?_⟩
  · intro d hd
    simp [query, hd]
  · intro d hmiss hok
    simp [query, hmiss, hok]
  · intro hmiss herr
    constructor
    · simp [query, hmiss, herr]
    · simp [query, hmiss, herr]

/-- C7 witness: a concrete failing lookup is not cached, and the follow-up
query for the same address performs the external lookup again. -/
theorem claim_C7_witness :
    query (fun _ => LookupResult.err) [] "203.0.113.5" = (none, [], 1) ∧
      (query (fun _ => LookupResult.err)
        (query (fun _ => LookupResult.err) [] "203.0.113.5").2.1 "203.0.113.5").2.2 = 1 :=
  (claim_C7 (fun _ => LookupResult.err) [] "203.0.113.5").2.2 rfl rfl

/-! ## Report formatting -/

/-- C10: every RTT field of every report row is rendered by
`format!("{:.03}", x).replace('.', ",")` — the embedding's `formatRtt`, used
for all four RTT columns of `generate_csv` — so no rendered RTT field
contains a decimal point. -/
theorem claim_C10 : ∀ q : Rtt, '.' ∉ (formatRtt q).data := by
  intro q hmem
  unfold formatRtt replaceDot at hmem
  simp only [String.data] at hmem
  rcases List.mem_map.mp hmem with ⟨c, _, hc⟩
  by_cases h : c = '.'
  · rw [if_pos h] at hc
    exact absurd hc (by decide)
  · rw [if_neg h] at hc
    exact h hc

/-! ## Map basics -/

theorem keys_mapUpdate (k : CountryCode) (f : List Meas → List Meas) :
    ∀ m : CountryMap, keys (mapUpdate k f m) = keys m := by
  intro m
  induction m with
  | nil => rfl
  | cons e rest ih =>
      by_cases h : e.1 = k
      · simp [mapUpdate, h, keys]
      · simp [mapUpdate, h, keys] at ih ⊢
        exact ih

theorem mapLookup_mapUpdate_self (k : CountryCode) (f : List Meas → List Meas) :
    ∀ m : CountryMap, mapLookup k (mapUpdate k f m) = (mapLookup k m).map f := by
  intro m
  induction m with
  | nil => rfl
  | cons e rest ih =>
      by_cases h : e.1 = k
      · simp [mapUpdate, mapLookup, h]
      · simp [mapUpdate, mapLookup, h]
        exact ih

theorem mapLookup_mapUpdate_ne (k k' : CountryCode) (f : List Meas → List Meas)
    (h : k' ≠ k) : ∀ m : CountryMap, mapLookup k' (mapUpdate k f m) = mapLookup k' m := by
  intro m
  induction m with
  | nil => rfl
  | cons e rest ih =>
      by_cases he : e.1 = k
      · have hkk : ¬ k = k' := fun hk => h hk.symm
        simp [mapUpdate, mapLookup, he, hkk]
      · by_cases he' : e.1 = k'
        · simp [mapUpdate, mapLookup, he, he', h]
        · simp [mapUpdate, mapLookup, he, he', ih]

theorem keys_pushIfPresent (k : CountryCode) (x : Meas) (m : CountryMap) :
    keys (pushIfPresent k x m) = keys m := by
  unfold pushIfPresent
  cases mapLookup k m with
  | none => rfl
  | some l => exact keys_mapUpdate k _ m

theorem mapLookup_isSome_iff (k : CountryCode) :
    ∀ m : CountryMap, (mapLookup k m).isSome ↔ k ∈ keys m := by
  intro m
  induction m with
  | nil => simp [mapLookup, keys]
  | cons e rest ih =>
      by_cases h : e.1 = k
      · simp [mapLookup, keys, h]
      · have h' : ¬ k = e.1 := fun hk => h hk.symm
        simp [mapLookup, keys, h, h', ih]

theorem mapLookup_eq_none_iff (k : CountryCode) (m : CountryMap) :
    mapLookup k m = none ↔ k ∉ keys m := by
  rw [← mapLookup_isSome_iff]
  cases mapLookup k m <;> simp

/-! ## Scan lemmas -/

theorem scanGroup_ccOld (geo : IP → Option GeoDetails) (cc : CountryCode) :
    ∀ (ms : List Meas) (i : ℕ) (md : Modifier), md ∈ scanGroup geo cc i ms → md.ccOld = cc := by
  intro ms
  induction ms with
  | nil => intro i md h; cases h
  | cons x rest ih =>
      intro i md h
      rcases x with ⟨city, ip, rtt⟩
      cases hgeo : geo ip with
      | none =>
          simp only [scanGroup, hgeo, List.nil_append] at h
          exact ih (i + 1) md h
      | some d =>
          by_cases hc : d.country ≠ cc
          · simp only [scanGroup, hgeo, if_pos hc, List.singleton_append,
              List.mem_cons] at h
            rcases h with rfl | h
            · rfl
            · exact ih (i + 1) md h
          · simp only [scanGroup, hgeo, if_neg hc, List.nil_append] at h
            exact ih (i + 1) md h

theorem scanModifiers_ccOld_mem (geo : IP → Option GeoDetails) :
    ∀ (m : CountryMap) (md : Modifier), md ∈ scanModifiers geo m → md.ccOld ∈ keys m := by
  intro m
  induction m with
  | nil => intro md h; cases h
  | cons e rest ih =>
      intro md h
      rcases e with ⟨cc, ms⟩
      simp only [scanModifiers, List.mem_append] at h
      rcases h with h | h
      · rw [scanGroup_ccOld geo cc ms 0 md h]
        exact List.mem_cons_self _ _
      · exact List.mem_cons_of_mem _ (ih md h)

theorem scanGroup_ccNew (geo : IP → Option GeoDetails) (cc : CountryCode) :
    ∀ (ms : List Meas) (i : ℕ) (md : Modifier), md ∈ scanGroup geo cc i ms →
      ∃ x ∈ ms, ∃ d, geo x.2.1 = some d ∧ md.ccNew = d.country := by
  intro ms
  induction ms with
  | nil => intro i md h; cases h
  | cons x rest ih =>
      intro i md h
      rcases x with ⟨city, ip, rtt⟩
      cases hgeo : geo ip with
      | none =>
          simp only [scanGroup, hgeo, List.nil_append] at h
          rcases ih (i + 1) md h with ⟨x, hx, d, hd, hcc⟩
          exact ⟨x, List.mem_cons_of_mem _ hx, d, hd, hcc⟩
      | some d =>
          by_cases hc : d.country ≠ cc
          · simp only [scanGroup, hgeo, if_pos hc, List.singleton_append,
              List.mem_cons] at h
            rcases h with rfl | h
            · exact ⟨(city, ip, rtt), List.mem_cons_self _ _, d, hgeo, rfl⟩
            · rcases ih (i + 1) md h with ⟨x, hx, d', hd, hcc⟩
              exact ⟨x, List.mem_cons_of_mem _ hx, d', hd, hcc⟩
          · simp only [scanGroup, hgeo, if_neg hc, List.nil_append] at h
            rcases ih (i + 1) md h with ⟨x, hx, d', hd, hcc⟩
            exact ⟨x, List.mem_cons_of_mem _ hx, d', hd, hcc⟩

theorem scanModifiers_ccNew (geo : IP → Option GeoDetails) :
    ∀ (m : CountryMap) (md : Modifier), md ∈ scanModifiers geo m →
      ∃ e ∈ m, ∃ x ∈ e.2, ∃ d, geo x.2.1 = some d ∧ md.ccNew = d.country := by
  intro m
  induction m with
  | nil => intro md h; cases h
  | cons e rest ih =>
      intro md h
      rcases e with ⟨cc, ms⟩
      simp only [scanModifiers, List.mem_append] at h
      rcases h with h | h
      · rcases scanGroup_ccNew geo cc ms 0 md h with ⟨x, hx, d, hd, hcc⟩
        exact ⟨(cc, ms), List.mem_cons_self _ _, x, hx, d, hd, hcc⟩
      · rcases ih md h with ⟨e, he, x, hx, d, hd, hcc⟩
        exact ⟨e, List.mem_cons_of_mem _ he, x, hx, d, hd, hcc⟩

theorem scanGroup_length (geo : IP → Option GeoDetails) (cc : CountryCode) :
    ∀ (ms : List Meas) (i : ℕ),
      (scanGroup geo cc i ms).length = (ms.filter (fun x => markedMeas geo cc x)).length := by
  intro ms
  induction ms with
  | nil => intro i; rfl
  | cons x rest ih =>
      intro i
      rcases x with ⟨city, ip, rtt⟩
      cases hgeo : geo ip with
      | none =>
          have hm : markedMeas geo cc (city, ip, rtt) = false := by
            simp [markedMeas, hgeo]
          simp [scanGroup, hgeo, List.filter_cons, hm, ih (i + 1)]
      | some d =>
          by_cases hc : d.country ≠ cc
          · have hm : markedMeas geo cc (city, ip, rtt) = true := by
              simp [markedMeas, hgeo, hc]
            simp only [scanGroup, hgeo, if_pos hc, List.singleton_append,
              List.length_cons, List.filter_cons, hm, if_pos trivial, ih (i + 1)]
          · have hm : markedMeas geo cc (city, ip, rtt) = false := by
              simp [markedMeas, hgeo]
              exact not_not.mp hc
            simp [scanGroup, hgeo, if_neg hc, List.filter_cons, hm, ih (i + 1)]

/-! ## The removal pass removes exactly the marked measurements

The modifiers of one group are collected in ascending index order, so the
reversed iteration of the removal pass erases within each group from the
highest index down — each erasure hits the element that was at that index
during the scan. -/

theorem eraseIdx_append_cons (x : Meas) (rest : List Meas) :
    ∀ pre : List Meas, (pre ++ x :: rest).eraseIdx pre.length = pre ++ rest := by
  intro pre
  induction pre with
  | nil => rfl
  | cons p ps ih => simpa [List.eraseIdx] using ih

theorem foldl_erase_scanGroup (geo : IP → Option GeoDetails) (cc : CountryCode) :
    ∀ (ms pre : List Meas),
      (scanGroup geo cc pre.length ms).reverse.foldl
          (fun l md => l.eraseIdx md.idx) (pre ++ ms)
        = pre ++ ms.filter (keepMeas geo cc) := by
  intro ms
  induction ms with
  | nil => intro pre; simp [scanGroup]
  | cons x rest ih =>
      intro pre
      rcases x with ⟨city, ip, rtt⟩
      have hih := ih (pre ++ [(city, ip, rtt)])
      rw [List.length_append, List.length_singleton] at hih
      simp only [List.append_assoc, List.singleton_append] at hih
      cases hgeo : geo ip with
      | none =>
          have hk : keepMeas geo cc (city, ip, rtt) = true := by
            simp [keepMeas, markedMeas, hgeo]
          simp only [scanGroup, hgeo, List.nil_append, List.filter_cons, hk, if_pos trivial]
          exact hih
      | some d =>
          by_cases hc : d.country ≠ cc
          · have hk : keepMeas geo cc (city, ip, rtt) = false := by
              simp [keepMeas, markedMeas, hgeo, hc]
            simp only [scanGroup, hgeo, if_pos hc, List.singleton_append,
              List.reverse_cons, List.foldl_append, List.foldl_cons, List.foldl_nil,
              List.filter_cons, hk]
            rw [hih]
            simpa using eraseIdx_append_cons (city, ip, rtt) (rest.filter (keepMeas geo cc)) pre
          · have hk : keepMeas geo cc (city, ip, rtt) = true := by
              simp [keepMeas, markedMeas, hgeo]
              exact not_not.mp hc
            simp only [scanGroup, hgeo, if_neg hc, List.nil_append, List.filter_cons,
              hk, if_pos trivial]
            exact hih

theorem foldl_removeStep_ne :
    ∀ (mods : List Modifier) (k : CountryCode) (v : List Meas) (m : CountryMap),
      (∀ md ∈ mods, md.ccOld ≠ k) →
      mods.foldl removeStep ((k, v) :: m) = (k, v) :: mods.foldl removeStep m := by
  intro mods
  induction mods with
  | nil => intro k v m _; rfl
  | cons md mds ih =>
      intro k v m h
      have h1 : md.ccOld ≠ k := h md (List.mem_cons_self _ _)
      have hne : ¬ (k = md.ccOld) := fun hk => h1 hk.symm
      have hstep : removeStep ((k, v) :: m) md = (k, v) :: removeStep m md := by
        simp [removeStep, mapUpdate, hne]
      simp only [List.foldl_cons, hstep]
      exact ih k v (removeStep m md) (fun md' hmd' => h md' (List.mem_cons_of_mem _ hmd'))

theorem foldl_removeStep_eq :
    ∀ (mods : List Modifier) (k : CountryCode) (v : List Meas) (m : CountryMap),
      (∀ md ∈ mods, md.ccOld = k) →
      mods.foldl removeStep ((k, v) :: m) =
        (k, mods.foldl (fun l md => l.eraseIdx md.idx) v) :: m := by
  intro mods
  induction mods with
  | nil => intro k v m _; rfl
  | cons md mds ih =>
      intro k v m h
      have h1 : md.ccOld = k := h md (List.mem_cons_self _ _)
      have hstep : removeStep ((k, v) :: m) md = (k, v.eraseIdx md.idx) :: m := by
        simp [removeStep, mapUpdate, h1]
      simp only [List.foldl_cons, hstep]
      exact ih k (v.eraseIdx md.idx) m (fun md' hmd' => h md' (List.mem_cons_of_mem _ hmd'))

/-- The removal pass of `fix_countries` leaves every group with exactly its
measurements whose lookup failed or agreed with the group key, in order. -/
theorem applyRemovals_scan (geo : IP → Option GeoDetails) :
    ∀ m : CountryMap, distinctKeys m →
      applyRemovals (scanModifiers geo m) m = removeMarked geo m := by
  intro m
  induction m with
  | nil => intro _; rfl
  | cons e rest ih =>
      intro h
      rcases e with ⟨cc, ms⟩
      simp only [distinctKeys, keys, List.map_cons, List.nodup_cons] at h
      obtain ⟨hcc, hnd⟩ := h
      show applyRemovals (scanGroup geo cc 0 ms ++ scanModifiers geo rest)
        ((cc, ms) :: rest) = _
      unfold applyRemovals
      rw [List.reverse_append, List.foldl_append]
      have h1 : ∀ md ∈ (scanModifiers geo rest).reverse, md.ccOld ≠ cc := by
        intro md hmd heq
        have hmem := scanModifiers_ccOld_mem geo rest md (List.mem_reverse.mp hmd)
        rw [heq] at hmem
        exact hcc hmem
      rw [foldl_removeStep_ne _ cc ms rest h1]
      have h2 : ∀ md ∈ (scanGroup geo cc 0 ms).reverse, md.ccOld = cc := fun md hmd =>
        scanGroup_ccOld geo cc ms 0 md (List.mem_reverse.mp hmd)
      rw [foldl_removeStep_eq _ cc ms _ h2]
      have h3 := foldl_erase_scanGroup geo cc ms []
      simp only [List.length_nil, List.nil_append] at h3
      rw [h3]
      have h4 : (scanModifiers geo rest).reverse.foldl removeStep rest =
          applyRemovals (scanModifiers geo rest) rest := rfl
      rw [h4, ih hnd]
      rfl

/-! ## Key-set and counting lemmas -/

theorem keys_removeMarked (geo : IP → Option GeoDetails) (m : CountryMap) :
    keys (removeMarked geo m) = keys m := by
  simp [removeMarked, keys, List.map_map, Function.comp]

theorem keys_foldl_removeStep :
    ∀ (mods : List Modifier) (m : CountryMap), keys (mods.foldl removeStep m) = keys m := by
  intro mods
  induction mods with
  | nil => intro m; rfl
  | cons md mds ih =>
      intro m
      simp only [List.foldl_cons]
      rw [ih, removeStep, keys_mapUpdate]

theorem keys_applyRemovals (mods : List Modifier) (m : CountryMap) :
    keys (applyRemovals mods m) = keys m :=
  keys_foldl_removeStep mods.reverse m

theorem keys_applyInserts :
    ∀ (mods : List Modifier) (m : CountryMap), keys (applyInserts mods m) = keys m := by
  intro mods
  induction mods with
  | nil => intro m; rfl
  | cons md mds ih =>
      intro m
      show keys (applyInserts mds (insertStep m md)) = keys m
      rw [ih, insertStep, keys_pushIfPresent]

theorem keys_fix_countries (geo : IP → Option GeoDetails) (m : CountryMap) :
    keys (fix_countries geo m) = keys m := by
  show keys (applyInserts (scanModifiers geo m) (applyRemovals (scanModifiers geo m) m)) = keys m
  rw [keys_applyInserts, keys_applyRemovals]

theorem totalCount_removeMarked_add (geo : IP → Option GeoDetails) :
    ∀ m : CountryMap,
      totalCount (removeMarked geo m) + (scanModifiers geo m).length = totalCount m := by
  intro m
  induction m with
  | nil => rfl
  | cons e rest ih =>
      rcases e with ⟨cc, ms⟩
      have hsplit : ms.length = (ms.filter (fun x => markedMeas geo cc x)).length +
          (ms.filter (fun x => ! markedMeas geo cc x)).length :=
        List.length_eq_length_filter_add _
      have hmark := scanGroup_length geo cc ms 0
      have hkeep : ms.filter (keepMeas geo cc) =
          ms.filter (fun x => ! markedMeas geo cc x) := rfl
      simp only [removeMarked, scanModifiers, totalCount, List.map_cons, List.sum_cons,
        List.length_append] at ih ⊢
      rw [hkeep]
      omega

theorem totalCount_mapUpdate_append (k : CountryCode) (x : Meas) :
    ∀ m : CountryMap, k ∈ keys m →
      totalCount (mapUpdate k (fun ms => ms ++ [x]) m) = totalCount m + 1 := by
  intro m
  induction m with
  | nil => intro h; cases h
  | cons e rest ih =>
      intro h
      by_cases he : e.1 = k
      · simp only [mapUpdate, if_pos he, totalCount, List.map_cons, List.sum_cons,
          List.length_append, List.length_singleton]
        omega
      · have hk : k ∈ keys rest := by
          simp only [keys, List.map_cons, List.mem_cons] at h
          rcases h with h | h
          · exact absurd h.symm he
          · exact h
        simp only [mapUpdate, if_neg he, totalCount, List.map_cons, List.sum_cons]
        have := ih hk
        simp only [totalCount] at this
        omega

theorem totalCount_pushIfPresent (k : CountryCode) (x : Meas) (m : CountryMap)
    (h : k ∈ keys m) : totalCount (pushIfPresent k x m) = totalCount m + 1 := by
  unfold pushIfPresent
  cases hml : mapLookup k m with
  | none => exact absurd h ((mapLookup_eq_none_iff k m).mp hml)
  | some v => exact totalCount_mapUpdate_append k x m h

theorem totalCount_applyInserts :
    ∀ (mods : List Modifier) (m : CountryMap),
      (∀ md ∈ mods, md.ccNew ∈ keys m) →
      totalCount (applyInserts mods m) = totalCount m + mods.length := by
  intro mods
  induction mods with
  | nil => intro m _; rfl
  | cons md mds ih =>
      intro m h
      show totalCount (applyInserts mds (insertStep m md)) = _
      have hstep : totalCount (insertStep m md) = totalCount m + 1 :=
        totalCount_pushIfPresent _ _ m (h md (List.mem_cons_self _ _))
      have hkeys : keys (insertStep m md) = keys m := keys_pushIfPresent _ _ m
      rw [ih (insertStep m md) (fun md' hmd' => by
        rw [hkeys]; exact h md' (List.mem_cons_of_mem _ hmd')), hstep]
      simp only [List.length_cons]
      omega

/-! ## C1: reconciliation preserves the total measurement count -/

/-- C1 (amended): for every country-group map with distinct keys, if every
Measurement's successfully resolved country is a key of the map, then the
total number of Measurements across all Country Groups after `fix_countries`
equals the total before. (Unconditionally — the original claim — this is
false: a Measurement relocated to a country with no existing group is
dropped, see `counterexample_C1`.) -/
theorem claim_C1 (geo : IP → Option GeoDetails) (rtts : CountryMap)
    (h1 : distinctKeys rtts)
    (h2 : ∀ e ∈ rtts, ∀ x ∈ e.2, ∀ d, geo x.2.1 = some d → d.country ∈ keys rtts) :
    totalCount (fix_countries geo rtts) = totalCount rtts := by
  show totalCount (applyInserts (scanModifiers geo rtts)
    (applyRemovals (scanModifiers geo rtts) rtts)) = totalCount rtts
  rw [applyRemovals_scan geo rtts h1]
  have hmods : ∀ md ∈ scanModifiers geo rtts, md.ccNew ∈ keys (removeMarked geo rtts) := by
    intro md hmd
    rw [keys_removeMarked]
    rcases scanModifiers_ccNew geo rtts md hmd with ⟨e, he, x, hx, d, hd, hcc⟩
    rw [hcc]
    exact h2 e he x hx d hd
  rw [totalCount_applyInserts _ _ hmods]
  have := totalCount_removeMarked_add geo rtts
  omega

/-- C1 witness: a Measurement in the "DE" group resolving to "PL" with a
"PL" group present relocates, and the total count is preserved. -/
theorem claim_C1_witness :
    totalCount (fix_countries (fun _ => some ⟨"PL", ""⟩)
      [("DE", [("", "9.9.9.9", 7)]), ("PL", [])]) =
      totalCount [("DE", [("", "9.9.9.9", (7 : ℚ))]), ("PL", [])] := by
  apply claim_C1
  · decide
  · intro e he x hx d hd
    have hd' : d = ⟨"PL", ""⟩ := (Option.some_injective _ hd).symm
    rw [hd']
    decide

/-- C1 counterexample: with no "PL" group present, the Measurement resolving
to "PL" is removed from "DE" and never reinserted anywhere, so the total
count drops from 1 to 0. -/
theorem counterexample_C1 :
    ¬ totalCount (fix_countries
        (fun ip => if ip = "203.0.113.5" then some ⟨"PL", ""⟩ else none)
        [("DE", [("", "203.0.113.5", 10)])]) =
      totalCount [("DE", [("", "203.0.113.5", (10 : ℚ))])] := by decide

/-! ## C2: relocation of a mislabeled measurement -/

/-- C2 (amended): `fix_countries` never creates a group — the key set is
invariant — so a Measurement whose resolved country differs from its group
key is removed from its original group and inserted into the resolved
country's group only when that group already exists; otherwise it is
dropped. Concretely, a "DE" Measurement resolving to "PL" moves into a
pre-existing "PL" group, while with no "PL" group it is removed from "DE"
and not reinserted anywhere. -/
theorem claim_C2 :
    (∀ (geo : IP → Option GeoDetails) (rtts : CountryMap),
      keys (fix_countries geo rtts) = keys rtts) ∧
    fix_countries (fun ip => if ip = "203.0.113.5" then some ⟨"PL", ""⟩ else none)
      [("DE", [("", "203.0.113.5", 10)]), ("PL", [])] =
      [("DE", []), ("PL", [("", "203.0.113.5", (10 : ℚ))])] ∧
    fix_countries (fun ip => if ip = "203.0.113.5" then some ⟨"PL", ""⟩ else none)
      [("DE", [("", "203.0.113.5", 10)])] = [("DE", ([] : List Meas))] :=
  ⟨keys_fix_countries, by decide, by decide⟩

/-- C2 counterexample: in the spec's scenario with no pre-existing "PL"
group, after reconciliation the "DE" group indeed no longer contains the
Measurement, but no "PL" group exists — the group is not created, the
Measurement is dropped. -/
theorem counterexample_C2 :
    mapLookup "PL" (fix_countries
        (fun ip => if ip = "203.0.113.5" then some ⟨"PL", ""⟩ else none)
        [("DE", [("", "203.0.113.5", 10)])]) = none ∧
      mapLookup "DE" (fix_countries
        (fun ip => if ip = "203.0.113.5" then some ⟨"PL", ""⟩ else none)
        [("DE", [("", "203.0.113.5", 10)])]) = some [] := by decide

/-! ## C9: idempotence of reconciliation on an already-reconciled map -/

theorem scanGroup_eq_nil (geo : IP → Option GeoDetails) (cc : CountryCode) :
    ∀ (ms : List Meas) (i : ℕ),
      (∀ x ∈ ms, ∃ d, geo x.2.1 = some d ∧ d.country = cc) →
      scanGroup geo cc i ms = [] := by
  intro ms
  induction ms with
  | nil => intro i _; rfl
  | cons x rest ih =>
      intro i h
      rcases x with ⟨city, ip, rtt⟩
      rcases h (city, ip, rtt) (List.mem_cons_self _ _) with ⟨d, hd, hcountry⟩
      have hrest := ih (i + 1) (fun x hx => h x (List.mem_cons_of_mem _ hx))
      simp [scanGroup, hd, hcountry, hrest]

theorem scanModifiers_eq_nil (geo : IP → Option GeoDetails) :
    ∀ m : CountryMap,
      (∀ e ∈ m, ∀ x ∈ e.2, ∃ d, geo x.2.1 = some d ∧ d.country = e.1) →
      scanModifiers geo m = [] := by
  intro m
  induction m with
  | nil => intro _; rfl
  | cons e rest ih =>
      intro h
      rcases e with ⟨cc, ms⟩
      have hg : scanGroup geo cc 0 ms = [] :=
        scanGroup_eq_nil geo cc ms 0 (h (cc, ms) (List.mem_cons_self _ _))
      have hrest := ih (fun e he x hx => h e (List.mem_cons_of_mem _ he) x hx)
      simp [scanModifiers, hg, hrest]

/-- C9: reconciliation is idempotent on already-reconciled input — when each
group's key equals the successfully resolved country of every Measurement it
holds, `fix_countries` collects no modifiers (no relocations) and returns
the map unchanged. -/
theorem claim_C9 (geo : IP → Option GeoDetails) (rtts : CountryMap)
    (h : ∀ e ∈ rtts, ∀ x ∈ e.2, ∃ d, geo x.2.1 = some d ∧ d.country = e.1) :
    scanModifiers geo rtts = [] ∧ fix_countries geo rtts = rtts := by
  have hs : scanModifiers geo rtts = [] := scanModifiers_eq_nil geo rtts h
  refine ⟨hs, ?_⟩
  show applyInserts (scanModifiers geo rtts)
    (applyRemovals (scanModifiers geo rtts) rtts) = rtts
  rw [hs]
  rfl

/-- C9 witness: a map whose sole group key matches every resolved country
passes through `fix_countries` unchanged. -/
theorem claim_C9_witness :
    fix_countries (fun _ => some ⟨"DE", "Berlin"⟩) [("DE", [("", "1.2.3.4", 10)])] =
      [("DE", [("", "1.2.3.4", (10 : ℚ))])] :=
  (claim_C9 (fun _ => some ⟨"DE", "Berlin"⟩) [("DE", [("", "1.2.3.4", 10)])]
    (by
      intro e he x hx
      simp only [List.mem_singleton] at he
      subst he
      exact ⟨⟨"DE", "Berlin"⟩, rfl, rfl⟩)).2

/-! ## C8: a failed geolocation lookup leaves the measurement in place -/

theorem mapLookup_removeMarked (geo : IP → Option GeoDetails) (k : CountryCode) :
    ∀ m : CountryMap,
      mapLookup k (removeMarked geo m) =
        (mapLookup k m).map (fun ms => ms.filter (keepMeas geo k)) := by
  intro m
  induction m with
  | nil => rfl
  | cons e rest ih =>
      by_cases he : e.1 = k
      · simp [removeMarked, mapLookup, he]
      · simp only [removeMarked, List.map_cons, mapLookup, he, if_neg he]
        exact ih

theorem mem_mapLookup_pushIfPresent (k' : CountryCode) (y : Meas) (k : CountryCode)
    (m : CountryMap) (l : List Meas) (x : Meas)
    (hl : mapLookup k m = some l) (hx : x ∈ l) :
    ∃ l', mapLookup k (pushIfPresent k' y m) = some l' ∧ x ∈ l' := by
  unfold pushIfPresent
  by_cases hk : k' = k
  · subst hk
    cases hml : mapLookup k' m with
    | none => rw [hml] at hl; cases hl
    | some v =>
        refine ⟨l ++ [y], ?_, List.mem_append_left _ hx⟩
        rw [mapLookup_mapUpdate_self, hl]
        rfl
  · cases hml : mapLookup k' m with
    | none => exact ⟨l, hl, hx⟩
    | some v =>
        refine ⟨l, ?_, hx⟩
        rw [mapLookup_mapUpdate_ne k' k _ (fun h' => hk h'.symm), hl]

theorem mem_mapLookup_applyInserts :
    ∀ (mods : List Modifier) (m : CountryMap) (k : CountryCode) (l : List Meas) (x : Meas),
      mapLookup k m = some l → x ∈ l →
      ∃ l', mapLookup k (applyInserts mods m) = some l' ∧ x ∈ l' := by
  intro mods
  induction mods with
  | nil => intro m k l x hl hx; exact ⟨l, hl, hx⟩
  | cons md mds ih =>
      intro m k l x hl hx
      rcases mem_mapLookup_pushIfPresent md.ccNew (md.city, md.ip, md.rtt) k m l x hl hx with
        ⟨l', hl', hx'⟩
      exact ih (insertStep m md) k l' x hl' hx'

/-- C8: a Measurement whose geolocation lookup fails is never marked for
relocation: after `fix_countries` it is still present in the group it was
in, while the rest of the batch is reconciled normally. -/
theorem claim_C8 (geo : IP → Option GeoDetails) (rtts : CountryMap)
    (cc : CountryCode) (ms : List Meas) (x : Meas)
    (h1 : distinctKeys rtts) (h2 : mapLookup cc rtts = some ms)
    (h3 : x ∈ ms) (h4 : geo x.2.1 = none) :
    ∃ ms', mapLookup cc (fix_countries geo rtts) = some ms' ∧ x ∈ ms' := by
  show ∃ ms', mapLookup cc (applyInserts (scanModifiers geo rtts)
    (applyRemovals (scanModifiers geo rtts) rtts)) = some ms' ∧ x ∈ ms'
  rw [applyRemovals_scan geo rtts h1]
  have hl : mapLookup cc (removeMarked geo rtts) = some (ms.filter (keepMeas geo cc)) := by
    rw [mapLookup_removeMarked, h2]
    rfl
  have hx : x ∈ ms.filter (keepMeas geo cc) :=
    List.mem_filter.mpr ⟨h3, by simp [keepMeas, markedMeas, h4]⟩
  exact mem_mapLookup_applyInserts _ _ cc _ x hl hx

/-- C8 witness: with a geolocation oracle that always fails, the single
Measurement of the "DE" group is still in the "DE" group afterwards. -/
theorem claim_C8_witness :
    ∃ ms', mapLookup "DE" (fix_countries (fun _ => none)
        [("DE", [("", "8.8.8.8", 10)])]) = some ms' ∧
      ("", "8.8.8.8", (10 : ℚ)) ∈ ms' :=
  claim_C8 (fun _ => none) [("DE", [("", "8.8.8.8", 10)])] "DE"
    [("", "8.8.8.8", 10)] ("", "8.8.8.8", 10)
    (by decide) (by decide) (by decide) rfl

/-! ## C3, C4: the per-group statistics block -/

/-- C3: the claim that aggregation is total on maps containing an empty
group is false — `generate_csv` computes `entries[len / 2 - 1]` for an empty
group (`len = 0`), a usize underflow followed by an out-of-bounds index,
i.e. a panic, modelled here by `none`: the empty group is not "simply
omitted", it crashes the aggregation. -/
theorem claim_C3 :
    groupStats [] = none ∧ intermediateRows [("DE", [])] = none ∧
      generate_csv [("DE", [])] = none := by decide

/-- C4: evaluating the per-group statistics at the spec's scenario RTTs
10, 20, 30, 40 — the code returns min 10, max 40, average 25, but median 20
(it adds `entries[len/2 - 1]` to itself and halves, i.e. the lower-middle
value), not the conventional median 25 the claim states. -/
theorem claim_C4 :
    groupStats [("a", "1", 10), ("b", "2", 20), ("c", "3", 30), ("d", "4", 40)] =
      some (10, 20, 25, 40) := by
  norm_num [groupStats, List.insertionSort, List.orderedInsert, measLE, MAX_RTT]

/-! ## C6: ordering and stability of the final report -/

theorem groupStats_min (entries : List Meas) (mn md av mx : Rtt)
    (h : groupStats entries = some (mn, md, av, mx)) :
    mn = entries.foldl (fun m e => if e.2.2 < m then e.2.2 else m) MAX_RTT := by
  simp only [groupStats] at h
  split at h
  · cases h
    rfl
  · cases h

/-- C6: the rows `generate_csv` emits are sorted ascending by the min-RTT
field, they are a permutation of the rows computed in encounter order, ties
on min RTT keep their encounter order (the sort is stable), and the min-RTT
sort key of a row is the true minimum of its group's RTTs (for a non-empty
group of RTTs below the `MAX_RTT` ceiling, as produced by the prober). -/
theorem claim_C6 (rtts : CountryMap) (rows sortedRows : List Row)
    (h1 : intermediateRows rtts = some rows) (h2 : aggregate rtts = some sortedRows) :
    sortedRows.Pairwise rowLE ∧ sortedRows.Perm rows ∧
      (∀ a b : Row, List.Sublist [a, b] rows → rowMin a = rowMin b →
        List.Sublist [a, b] sortedRows) ∧
      (∀ (entries : List Meas) (mn md av mx : Rtt),
        groupStats entries = some (mn, md, av, mx) → entries ≠ [] →
        (∀ x ∈ entries, x.2.2 < MAX_RTT) →
        (∃ x ∈ entries, mn = x.2.2) ∧ ∀ x ∈ entries, mn ≤ x.2.2) := by
  unfold aggregate at h2
  rw [h1] at h2
  have hs : rows.insertionSort rowLE = sortedRows := Option.some_injective _ h2
  subst hs
  refine ⟨List.sorted_insertionSort rowLE rows, List.perm_insertionSort rowLE rows, ?_, ?_⟩
  · intro a b hab heq
    exact List.pair_sublist_insertionSort (le_of_eq heq) hab
  · intro entries mn md av mx h hne hlt
    rw [groupStats_min entries mn md av mx h]
    constructor
    · rcases foldl_minBy_eq_or_mem (fun e : Meas => e.2.2) entries MAX_RTT with
        hfold | ⟨x, hx, hfold⟩
      · rcases List.exists_mem_of_ne_nil entries hne with ⟨x, hx⟩
        have hle := foldl_minBy_le_mem (fun e : Meas => e.2.2) entries MAX_RTT x hx
        rw [hfold] at hle
        exact absurd (lt_of_le_of_lt hle (hlt x hx)) (lt_irrefl _)
      · exact ⟨x, hx, hfold⟩
    · exact fun x hx => foldl_minBy_le_mem (fun e : Meas => e.2.2) entries MAX_RTT x hx

/-- C6 witness: a two-country map aggregates to rows sorted by min RTT. -/
theorem claim_C6_witness :
    ([("PL", 10, 10, 10, 10), ("DE", 30, 30, 30, 30)] : List Row).Pairwise rowLE := by
  have h1 : intermediateRows [("DE", [("a", "1", 30)]), ("PL", [("b", "2", 10)])] =
      some [("DE", 30, 30, 30, 30), ("PL", 10, 10, 10, 10)] := by
    norm_num [intermediateRows, groupStats, List.insertionSort, List.orderedInsert,
      measLE, MAX_RTT]
  have h2 : aggregate [("DE", [("a", "1", 30)]), ("PL", [("b", "2", 10)])] =
      some [("PL", 10, 10, 10, 10), ("DE", 30, 30, 30, 30)] := by
    norm_num [aggregate, intermediateRows, groupStats, List.insertionSort,
      List.orderedInsert, measLE, rowLE, rowMin, MAX_RTT]
  have h3 : ([("PL", (10:ℚ), 10, 10, 10), ("DE", 30, 30, 30, 30)] : List Row) =
      ([("DE", 30, 30, 30, 30), ("PL", 10, 10, 10, 10)] : List Row).insertionSort rowLE := by
    norm_num [List.insertionSort, List.orderedInsert, rowLE, rowMin]
  exact (claim_C6 _ _ _ h1 (by rw [h3] at h2; exact h2)).1

end Geoping
